import Mathlib

/-!
# Document chunking: tokenizer, chunker, document store and chat turn

A shallow embedding of `src/server.js` (`tokenize`, `detokenize`, `chunkText`, the
resolution of the chunking parameters of an upload, the handlers that read and delete
a stored document, the validation and the context rendering of the `/chat` handler)
and of `src/public/script.js` (`getSelectedChunksText`, `sendChatMessage`,
`selectDocument`, `displayChunks`, `deleteDocument`), followed by theorems about them.

Conventions of the embedding:
* a JavaScript string is a `List Char` (a character outside the basic plane is two
  surrogate code units in JavaScript, neither of which is whitespace, so the runs of
  non-whitespace characters are the same in both readings);
* a JavaScript number that holds an integer is an `Int` (all values that occur are far
  below `2^53`, where double arithmetic on integers is exact), and `NaN` is `none`;
* the `while` loop of `chunkText` takes a fuel argument that counts iterations; running
  out of fuel is `none`;
* an object literal used as a dictionary is the association list of its own
  properties, and a property read also sees the members of `Object.prototype`.
-/

namespace DocChunk

/-! ## Strings and the tokenizer (`src/server.js`, lines 52-62) -/

/-- A JavaScript string. -/
abbrev Str := List Char

/-- The characters matched by `\s` in a JavaScript regular expression
(ECMAScript `WhiteSpace` and `LineTerminator`), so that `\S` is its negation. -/
def isWhiteSpace (c : Char) : Bool :=
  let n := c.toNat
  n == 0x09 || n == 0x0A || n == 0x0B || n == 0x0C || n == 0x0D || n == 0x20 ||
  n == 0xA0 || n == 0x1680 || (0x2000 ≤ n && n ≤ 0x200A) || n == 0x2028 ||
  n == 0x2029 || n == 0x202F || n == 0x205F || n == 0x3000 || n == 0xFEFF

/-- The scan of a global match of `/\S+/g`: `run` is the greedy match in progress
(empty when the scanner is between matches); a match ends at the first `\s`
character or at the end of the input, and the scan resumes after it. -/
def scanRuns : Str → Str → List Str
  | [], run => if run.isEmpty then [] else [run]
  | c :: cs, run =>
    if isWhiteSpace c then
      if run.isEmpty then scanRuns cs [] else run :: scanRuns cs []
    else scanRuns cs (run ++ [c])

/-- The value of `text.match(/\S+/g)`: the array of all matches, or `null` (`none`)
when there is no match. -/
def matchNonSpace (text : Str) : Option (List Str) :=
  match scanRuns text [] with
  | [] => none
  | ms => some ms

/-- The function `tokenize`: `text.match(/\S+/g) || []`. -/
def tokenize (text : Str) : List Str :=
  (matchNonSpace text).getD []

/-- The method `Array.prototype.join` with separator `sep`. -/
def join (sep : Str) : List Str → Str
  | [] => []
  | [t] => t
  | t :: u :: rest => t ++ sep ++ join sep (u :: rest)

/-- The function `detokenize`: `tokens.join(' ')`. -/
def detokenize (tokens : List Str) : Str :=
  join [' '] tokens

/-! ## The chunker (`src/server.js`, lines 64-109) -/

/-- The method `Array.prototype.slice(start, end)` with integer arguments: a negative
index counts from the end, and both indices are clamped to `[0, length]`. -/
def jsSlice {α : Type} (xs : List α) (s e : Int) : List α :=
  let len : Int := xs.length
  let k : Int := if s < 0 then max (len + s) 0 else min s len
  let fin : Int := if e < 0 then max (len + e) 0 else min e len
  (xs.drop k.toNat).take (fin - k).toNat

/-- A chunk object as built by `chunkText`. -/
structure Chunk where
  id : Int
  text : Str
  tokenCount : Int
  startToken : Int
  endToken : Int
  isLastChunk : Bool
  deriving DecidableEq, Repr

/-- The `while` loop of `chunkText`. The state is `startIndex`, `chunkNumber` and the
array `chunks`; the fuel bounds the number of iterations, and `none` means that
the loop has not exited within that many iterations. -/
def chunkLoop (tokens : List Str) (chunkSize overlapSize : Int) :
    Nat → Int → Int → List Chunk → Option (List Chunk)
  | 0, startIndex, _, chunks =>
    if startIndex < (tokens.length : Int) then none else some chunks
  | fuel + 1, startIndex, chunkNumber, chunks =>
    if startIndex < (tokens.length : Int) then
      let endIndex : Int := min (startIndex + chunkSize) tokens.length
      let chunkTokens := jsSlice tokens startIndex endIndex
      let chunk : Chunk :=
        { id := chunkNumber
          text := detokenize chunkTokens
          tokenCount := chunkTokens.length
          startToken := startIndex
          endToken := endIndex - 1
          isLastChunk := decide ((tokens.length : Int) ≤ endIndex) }
      let chunks1 := chunks ++ [chunk]
      let startIndex1 := endIndex - overlapSize
      let startIndex2 :=
        if startIndex1 ≤ (chunks1.getLastD chunk).startToken ∧ chunk.isLastChunk = false
        then endIndex else startIndex1
      if chunk.isLastChunk then some chunks1
      else chunkLoop tokens chunkSize overlapSize fuel startIndex2 (chunkNumber + 1) chunks1
    else some chunks

/-- The function `chunkText(text, chunkSize, overlapSize)`, with the loop run for at
most `fuel` iterations. -/
def chunkText (fuel : Nat) (text : Str) (chunkSize overlapSize : Int) :
    Option (List Chunk) :=
  let tokens := tokenize text
  if tokens.length = 0 then some []
  else chunkLoop tokens chunkSize overlapSize fuel 0 1 []

/-- The index range `(startToken, endToken)` of a chunk. -/
def Chunk.range (c : Chunk) : Int × Int := (c.startToken, c.endToken)

/-! ## Context assembly (`src/public/script.js`, lines 1-5 and 359-372;
`src/server.js`, lines 311-314) -/

/-- A stored document, as the upload handler builds it and the client keeps it. -/
structure Document where
  filename : Str
  fileId : Str
  originalText : Str
  totalTokens : Int
  chunkSize : Int
  overlapSize : Int
  chunks : List Chunk
  uploadTime : Str
  deriving DecidableEq, Repr

/-- The global state of the client: the object `documents` as an association list from
file id to document, `currentDocumentId` (`none` for `null`) and the set
`selectedChunks`, listed in insertion order. -/
structure ClientState where
  documents : List (Str × Document)
  currentDocumentId : Option Str
  selectedChunks : List Int
  deriving DecidableEq, Repr

/-- An element `{id, text}` of the array sent as `chunks` to the chat endpoint. -/
structure SelectedChunk where
  id : Int
  text : Str
  deriving DecidableEq, Repr

/-- The names of the properties that an object literal inherits from
`Object.prototype`; the value of each of them is truthy. -/
def objectPrototypeKeys : List Str :=
  ["constructor".toList, "__defineGetter__".toList, "__defineSetter__".toList,
   "hasOwnProperty".toList, "__lookupGetter__".toList, "__lookupSetter__".toList,
   "isPrototypeOf".toList, "propertyIsEnumerable".toList, "toString".toList,
   "valueOf".toList, "__proto__".toList, "toLocaleString".toList]

/-- The value of `obj[key]` for an object literal whose own properties are documents:
an own property, a member inherited from `Object.prototype` (truthy, and not a
document), or `undefined`. -/
inductive Property where
  | document (doc : Document)
  | inherited
  | undefined
  deriving DecidableEq, Repr

/-- The property read `obj[key]`, with the own properties of `obj` as an association
list. -/
def getProperty (obj : List (Str × Document)) (key : Str) : Property :=
  match obj.lookup key with
  | some doc => Property.document doc
  | none => if objectPrototypeKeys.contains key then Property.inherited else Property.undefined

/-- The statement `delete obj[key]`: the own property `key` is removed, if there is
one. -/
def deleteProperty (obj : List (Str × Document)) (key : Str) : List (Str × Document) :=
  obj.filter (fun entry => !(entry.1 == key))

/-- The function `getSelectedChunksText`: the empty array when `currentDocumentId` is
falsy (`null` or the empty string) or `documents[currentDocumentId]` is `undefined`,
otherwise the chunks of the current document whose id the selection set has, in the
document's order. The result is `none` when the call throws: for a member inherited
from `Object.prototype` the property `chunks` is `undefined` and `doc.chunks.filter`
is a `TypeError`. -/
def getSelectedChunksText (st : ClientState) : Option (List SelectedChunk) :=
  match st.currentDocumentId with
  | none => some []
  | some cur =>
    if cur.isEmpty then some []
    else
      match getProperty st.documents cur with
      | Property.undefined => some []
      | Property.inherited => none
      | Property.document doc =>
        some ((doc.chunks.filter (fun chunk => st.selectedChunks.contains chunk.id)).map
          (fun chunk => { id := chunk.id, text := chunk.text }))

/-- The decimal string of an integer number, as a template literal renders it. -/
def numberToString (n : Int) : Str :=
  if n < 0 then '-' :: Nat.toDigits 10 n.natAbs else Nat.toDigits 10 n.natAbs

/-- The template literal of the chat handler for one chunk: the label, the id, a colon
and a space, then the text. -/
def chunkBlock (id : Int) (text : Str) : Str :=
  ['[', 'C', 'h', 'u', 'n', 'k', ' '] ++ numberToString id ++ [']', ':', ' '] ++ text

/-- The context built by the chat handler from the `chunks` of the request body:
one block per chunk, joined by two newlines. -/
def chatContext (chunks : List SelectedChunk) : Str :=
  join ['\n', '\n'] (chunks.map (fun chunk => chunkBlock chunk.id chunk.text))

/-! ## The chat turn (`src/server.js`, lines 302-329; `src/public/script.js`,
lines 383-420) -/

/-- The body of a request to the chat endpoint; a field that is missing is `none`. -/
structure ChatRequest where
  message : Option Str
  chunks : Option (List SelectedChunk)
  documentId : Option Str
  deriving DecidableEq, Repr

/-- What the chat handler does with a request, up to the call of the completion
service: it answers with the validation error, or it builds the context and the user
prompt and calls the service with them. -/
inductive ChatOutcome where
  | validationError (status : Nat)
  | completion (context userPrompt : Str)
  deriving DecidableEq, Repr

/-- The template literal `userPrompt` of the chat handler. -/
def userPrompt (context message : Str) : Str :=
  "Context from document chunks:\n".toList ++ context ++
    "\n\n---\n\nUser Question: ".toList ++ message ++
    "\n\nPlease answer based on the context provided above.".toList

/-- The chat handler up to the completion call: the validation
`!message || !chunks || chunks.length === 0` answers with status 400, otherwise the
context is built from `chunks`. -/
def chatHandler (body : ChatRequest) : ChatOutcome :=
  match body.message, body.chunks with
  | none, _ => ChatOutcome.validationError 400
  | some _, none => ChatOutcome.validationError 400
  | some message, some chunks =>
    if message.isEmpty || chunks.length == 0 then ChatOutcome.validationError 400
    else
      let context := chatContext chunks
      ChatOutcome.completion context (userPrompt context message)

/-- The method `String.prototype.trim`: whitespace and line terminators are removed
from both ends. -/
def trim (s : Str) : Str :=
  ((s.dropWhile isWhiteSpace).reverse.dropWhile isWhiteSpace).reverse

/-- The function `sendChatMessage` up to its `fetch`: the request that is sent, or
`none` when the function returns (or throws) without sending one. `input` is the value
of the chat input field. -/
def sendChatMessage (st : ClientState) (input : Str) : Option ChatRequest :=
  let message := trim input
  if message.isEmpty then none
  else
    match getSelectedChunksText st with
    | none => none
    | some selectedChunksData =>
      if selectedChunksData.length == 0 then none
      else
        some { message := some message, chunks := some selectedChunksData,
               documentId := st.currentDocumentId }

/-! ## The document store (`src/server.js`, lines 49-50, 246-256 and 270-286) -/

/-- The answers of the handlers of `/chunks/:fileId` and `/documents/:fileId`. -/
inductive StoreResponse where
  | notFound
  | document (doc : Document)
  | inheritedValue
  | deleted
  deriving DecidableEq, Repr

/-- The handler of `GET /chunks/:fileId` on the store `documentChunks`: status 404 when
`documentChunks[fileId]` is falsy, otherwise `res.json` of that value, which is a
stored document or, for an inherited name, a member of `Object.prototype`. -/
def getChunksHandler (documentChunks : List (Str × Document)) (fileId : Str) :
    StoreResponse :=
  match getProperty documentChunks fileId with
  | Property.undefined => StoreResponse.notFound
  | Property.document doc => StoreResponse.document doc
  | Property.inherited => StoreResponse.inheritedValue

/-- The handler of `DELETE /documents/:fileId`: the answer and the store afterwards.
Status 404 when `documentChunks[fileId]` is falsy, otherwise `delete
documentChunks[fileId]` and the success answer. The removal of the uploaded file is
outside the model. -/
def deleteDocumentHandler (documentChunks : List (Str × Document)) (fileId : Str) :
    StoreResponse × List (Str × Document) :=
  match getProperty documentChunks fileId with
  | Property.undefined => (StoreResponse.notFound, documentChunks)
  | Property.document _ => (StoreResponse.deleted, deleteProperty documentChunks fileId)
  | Property.inherited => (StoreResponse.deleted, deleteProperty documentChunks fileId)

/-! ## The viewed document (`src/public/script.js`, lines 160-189 and 225-258) -/

/-- The tokens of the specification: `MaximalRuns text toks` holds when `toks` lists,
from left to right, the maximal runs of non-whitespace characters of `text`. A
whitespace character is skipped; a run is non-empty, has no whitespace character and
is followed by a whitespace character or by the end of the text. -/
inductive MaximalRuns : Str → List Str → Prop
  | nil : MaximalRuns [] []
  | space (c : Char) (cs : Str) (ts : List Str) (hc : isWhiteSpace c = true)
      (h : MaximalRuns cs ts) : MaximalRuns (c :: cs) ts
  | run (t rest : Str) (ts : List Str) (hne : t ≠ [])
      (ht : ∀ c ∈ t, isWhiteSpace c = false)
      (hrest : ∀ c, rest.head? = some c → isWhiteSpace c = true)
      (h : MaximalRuns rest ts) : MaximalRuns (t ++ rest) (t :: ts)

/-! ## The loop as a trace of windows -/

/-- The chunks emitted from loop state `(s, k)` when the loop runs to its exit, for
`0 ≤ s`: a window that reaches the end of the tokens is the last one, any other
window has `chunkSize` tokens and is followed by the trace from the next start. -/
inductive Trace (tokens : List Str) (chunkSize overlapSize : Int) :
    Int → Int → List Chunk → Prop
  | last (s k : Int) (h0 : 0 ≤ s) (hs : s < (tokens.length : Int))
      (he : (tokens.length : Int) ≤ s + chunkSize) :
      Trace tokens chunkSize overlapSize s k
        [{ id := k
           text := detokenize ((tokens.drop s.toNat).take ((tokens.length : Int) - s).toNat)
           tokenCount := (tokens.length : Int) - s
           startToken := s
           endToken := (tokens.length : Int) - 1
           isLastChunk := true }]
  | step (s k : Int) (r : List Chunk) (h0 : 0 ≤ s)
      (he : s + chunkSize < (tokens.length : Int))
      (hr : Trace tokens chunkSize overlapSize
        (if s + chunkSize - overlapSize ≤ s then s + chunkSize else s + chunkSize - overlapSize)
        (k + 1) r) :
      Trace tokens chunkSize overlapSize s k
        ({ id := k
           text := detokenize ((tokens.drop s.toNat).take chunkSize.toNat)
           tokenCount := chunkSize
           startToken := s
           endToken := s + chunkSize - 1
           isLastChunk := false } :: r)

/-- What every chunk of a trace satisfies with respect to the token sequence. -/
def Chunk.WellFormed (tokens : List Str) (chunkSize : Int) (c : Chunk) : Prop :=
  0 ≤ c.startToken ∧ c.startToken < (tokens.length : Int) ∧
  c.endToken = min (c.startToken + chunkSize) (tokens.length : Int) - 1 ∧
  c.tokenCount = c.endToken - c.startToken + 1 ∧
  (c.isLastChunk = true ↔ (tokens.length : Int) ≤ c.startToken + chunkSize) ∧
  c.text = detokenize ((tokens.drop c.startToken.toNat).take c.tokenCount.toNat)

/-- How a chunk `b` of a trace follows its predecessor `a`. -/
def Chunk.Next (tokens : List Str) (chunkSize overlapSize : Int) (a b : Chunk) : Prop :=
  a.startToken + chunkSize < (tokens.length : Int) ∧
  b.startToken =
    (if a.startToken + chunkSize - overlapSize ≤ a.startToken then a.startToken + chunkSize
     else a.startToken + chunkSize - overlapSize) ∧
  b.id = a.id + 1

/-! ## Values used in the examples -/

/-- A text of `n` one-letter words, each followed by a space. -/
def words (n : Nat) : Str := (List.replicate n ['a', ' ']).flatten

/-- The fields of a chunk other than its text. -/
def Chunk.summary (c : Chunk) : Int × Int × Int × Int × Bool :=
  (c.id, c.startToken, c.endToken, c.tokenCount, c.isLastChunk)

/-- A document with three chunks, for the examples. -/
def sampleDocument : Document :=
  { filename := ['f'], fileId := ['d'], originalText := ['a', ' ', 'b', ' ', 'c'],
    totalTokens := 3, chunkSize := 1, overlapSize := 0,
    chunks :=
      [{ id := 1, text := ['a'], tokenCount := 1, startToken := 0, endToken := 0,
         isLastChunk := false },
       { id := 2, text := ['b'], tokenCount := 1, startToken := 1, endToken := 1,
         isLastChunk := false },
       { id := 3, text := ['c'], tokenCount := 1, startToken := 2, endToken := 2,
         isLastChunk := true }],
    uploadTime := [] }

/-- A client state that views `sampleDocument` with chunk 3 selected before chunk 1. -/
def sampleState : ClientState :=
  { documents := [(['d'], sampleDocument)], currentDocumentId := some ['d'],
    selectedChunks := [3, 1] }

/-- A request body with a question and one selected chunk, for the examples. -/
def sampleRequest : ChatRequest :=
  { message := some ['h', 'i'], chunks := some [{ id := 1, text := ['a'] }],
    documentId := some ['d'] }

/-- A store that holds `sampleDocument` under the id `d`. -/
def sampleStore : List (Str × Document) := [(['d'], sampleDocument)]

/-! ## The chunking parameters of an upload (`src/server.js`, lines 203-213) -/

/-- The value of a character as a digit of `parseInt`: `0-9`, then `a-z` or `A-Z` for
10 to 35. -/
def digitValue (c : Char) : Option Nat :=
  if '0' ≤ c ∧ c ≤ '9' then some (c.toNat - '0'.toNat)
  else if 'a' ≤ c ∧ c ≤ 'z' then some (c.toNat - 'a'.toNat + 10)
  else if 'A' ≤ c ∧ c ≤ 'Z' then some (c.toNat - 'A'.toNat + 10)
  else none

/-- The values of the longest prefix of `s` that consists of digits of the radix. -/
def radixDigits (radix : Nat) : Str → List Nat
  | [] => []
  | c :: cs =>
    match digitValue c with
    | some d => if d < radix then d :: radixDigits radix cs else []
    | none => []

/-- The function `parseInt` with one argument, which is a string or `undefined`
(`none`); the result `none` is `NaN`. Leading whitespace is skipped, a sign is read,
a prefix `0x` or `0X` selects radix 16, and the longest prefix of digits is the value;
without a digit the result is `NaN`. The string `"undefined"` of an `undefined`
argument has no digit. -/
def parseInt (input : Option Str) : Option Int :=
  match input with
  | none => none
  | some s =>
    let s1 := s.dropWhile isWhiteSpace
    let signed : Int × Str :=
      match s1 with
      | '-' :: rest => (-1, rest)
      | '+' :: rest => (1, rest)
      | _ => (1, s1)
    let based : Nat × Str :=
      match signed.2 with
      | '0' :: 'x' :: rest => (16, rest)
      | '0' :: 'X' :: rest => (16, rest)
      | _ => (10, signed.2)
    let digits := radixDigits based.1 based.2
    if digits.isEmpty then none
    else some (signed.1 * ((digits.foldl (fun acc d => acc * based.1 + d) 0 : Nat) : Int))

/-- The expression `a || b` for numbers: `a` when it is truthy (neither `NaN` nor 0),
otherwise `b`. -/
def orNumber (a b : Option Int) : Option Int :=
  match a with
  | some v => if v = 0 then b else some v
  | none => b

/-- The expression `a || d` for a number `a` and a non-zero literal `d`; the result is
never `NaN`. -/
def orDefault (a : Option Int) (d : Int) : Int :=
  match a with
  | some v => if v = 0 then d else v
  | none => d

/-- The fields `chunkSize` and `overlapSize` of the body of an upload request; a field
that is missing is `none`. -/
structure UploadBody where
  chunkSize : Option Str
  overlapSize : Option Str
  deriving DecidableEq, Repr

/-- The environment variables `DEFAULT_CHUNK_SIZE` and `DEFAULT_OVERLAP_SIZE`; a
variable that is not set is `none`. -/
structure Env where
  defaultChunkSize : Option Str
  defaultOverlapSize : Option Str
  deriving DecidableEq, Repr

/-- The constant `chunkSize` of the upload handler:
`parseInt(req.body.chunkSize) || parseInt(process.env.DEFAULT_CHUNK_SIZE) || 400`. -/
def uploadChunkSize (body : UploadBody) (env : Env) : Int :=
  orDefault (orNumber (parseInt body.chunkSize) (parseInt env.defaultChunkSize)) 400

/-- The constant `overlapSize` of the upload handler:
`parseInt(req.body.overlapSize) || parseInt(process.env.DEFAULT_OVERLAP_SIZE) || 25`. -/
def uploadOverlapSize (body : UploadBody) (env : Env) : Int :=
  orDefault (orNumber (parseInt body.overlapSize) (parseInt env.defaultOverlapSize)) 25

/-- The constant `chunks` of the upload handler, for the text that the extraction
returned: `chunkText(extractedText, chunkSize, overlapSize)`. -/
def uploadChunks (fuel : Nat) (body : UploadBody) (env : Env) (extractedText : Str) :
    Option (List Chunk) :=
  chunkText fuel extractedText (uploadChunkSize body env) (uploadOverlapSize body env)

/-! ## The iterations of the loop of `chunkText` -/

/-- A number is falsy when it is `NaN` or 0. -/
def falsy (a : Option Int) : Prop := a = none ∨ a = some 0

/-! ## Facts about the loop -/

/-- Within bounds `slice(s, e)` drops `s` elements and takes the next `e - s`. -/
theorem jsSlice_of_le {α : Type} (xs : List α) (s e : Int) (h0 : 0 ≤ s) (hse : s ≤ e)
    (he : e ≤ (xs.length : Int)) :
    jsSlice xs s e = (xs.drop s.toNat).take (e - s).toNat := by
  have h1 : ¬ s < 0 := by omega
  have h2 : ¬ e < 0 := by omega
  simp only [jsSlice, h1, h2, if_false]
  rw [min_eq_left he, min_eq_left (show s ≤ (xs.length : Int) by omega)]

theorem length_drop_take {α : Type} (xs : List α) (s e : Int) (h0 : 0 ≤ s) (hse : s ≤ e)
    (he : e ≤ (xs.length : Int)) :
    (((xs.drop s.toNat).take (e - s).toNat).length : Int) = e - s := by
  rw [List.length_take, List.length_drop]
  omega

/-- The array `chunks` is only appended to: the loop started with `acc` returns `acc`
followed by what it returns when started with the empty array. -/
theorem chunkLoop_acc (tokens : List Str) (cs os : Int) (fuel : Nat) :
    ∀ (s k : Int) (acc : List Chunk),
      chunkLoop tokens cs os fuel s k acc =
        (chunkLoop tokens cs os fuel s k []).map (fun r => acc ++ r) := by
  induction fuel with
  | zero =>
    intro s k acc
    by_cases h : s < (tokens.length : Int) <;> simp [chunkLoop, h]
  | succ f ih =>
    intro s k acc
    by_cases h : s < (tokens.length : Int)
    · by_cases hl : (tokens.length : Int) ≤ min (s + cs) (tokens.length : Int)
      · simp [chunkLoop, h, hl]
      · simp only [chunkLoop, h, hl, if_true, decide_False, List.nil_append]
        rw [ih _ _ (acc ++ _), ih _ _ [_]]
        simp [List.getLastD_concat, Option.map_map, Function.comp_def]
    · simp [chunkLoop, h]

/-- Running the loop from a state `(s, k)` with `0 ≤ s < len` and at least `len - s`
iterations of fuel exits, and what it returns is the trace from `(s, k)`. -/
theorem chunkLoop_trace (tokens : List Str) (cs os : Int) (hcs : 1 ≤ cs) (hos : 0 ≤ os)
    (fuel : Nat) :
    ∀ (s k : Int), 0 ≤ s → s < (tokens.length : Int) →
      (tokens.length : Int) - s ≤ fuel →
      ∃ r, chunkLoop tokens cs os fuel s k [] = some r ∧ Trace tokens cs os s k r := by
  induction fuel with
  | zero => intro s k h0 hs hf; simp at hf; omega
  | succ f ih =>
    intro s k h0 hs hf
    by_cases hl : (tokens.length : Int) ≤ s + cs
    · refine ⟨_, ?_, Trace.last s k h0 hs hl⟩
      have hmin : min (s + cs) (tokens.length : Int) = tokens.length := min_eq_right hl
      simp only [chunkLoop, hs, hmin, if_true, le_refl, decide_True, List.nil_append]
      rw [jsSlice_of_le _ _ _ h0 (le_of_lt hs) le_rfl,
        length_drop_take _ _ _ h0 (le_of_lt hs) le_rfl]
    · have hlt : s + cs < (tokens.length : Int) := by omega
      have hmin : min (s + cs) (tokens.length : Int) = s + cs := min_eq_left (le_of_lt hlt)
      have hnl : ¬ (tokens.length : Int) ≤ s + cs := hl
      obtain ⟨r, hr, htr⟩ := ih
        (if s + cs - os ≤ s then s + cs else s + cs - os) (k + 1)
        (by split <;> omega) (by split <;> omega) (by split <;> push_cast at hf <;> omega)
      refine ⟨_, ?_, Trace.step s k r h0 hlt htr⟩
      simp only [chunkLoop, hs, hmin, hnl, if_true, decide_False, List.getLastD_concat,
        and_true, Bool.false_eq_true, if_false]
      rw [chunkLoop_acc, hr, jsSlice_of_le _ _ _ h0 (by omega) (le_of_lt hlt),
        length_drop_take _ _ _ h0 (by omega) (le_of_lt hlt)]
      simp

/-- The function `chunkText` returns the trace from `(0, 1)` on a text with tokens. -/
theorem chunkText_trace (text : Str) (cs os : Int) (hcs : 1 ≤ cs) (hos : 0 ≤ os)
    (fuel : Nat) (hfuel : (tokenize text).length ≤ fuel) :
    ∃ r, chunkText fuel text cs os = some r ∧
      (((tokenize text).length = 0 ∧ r = []) ∨
        (0 < (tokenize text).length ∧ Trace (tokenize text) cs os 0 1 r)) := by
  by_cases hn : (tokenize text).length = 0
  · exact ⟨[], by simp [chunkText, hn], Or.inl ⟨hn, rfl⟩⟩
  · obtain ⟨r, hr, htr⟩ := chunkLoop_trace (tokenize text) cs os hcs hos fuel 0 1 le_rfl
      (by omega) (by omega)
    exact ⟨r, by simp only [chunkText, hn, if_false]; exact hr, Or.inr ⟨by omega, htr⟩⟩

/-! ## Facts about traces -/

theorem trace_head {tokens : List Str} {cs os s k : Int} {r : List Chunk} (hcs : 1 ≤ cs)
    (h : Trace tokens cs os s k r) :
    ∃ c rest, r = c :: rest ∧ c.startToken = s ∧ c.id = k ∧ 0 ≤ s ∧
      s < (tokens.length : Int) := by
  cases h with
  | last _ _ h0 hs he => exact ⟨_, _, rfl, rfl, rfl, h0, hs⟩
  | step _ _ r h0 he hr => exact ⟨_, _, rfl, rfl, rfl, h0, by omega⟩

theorem trace_ne_nil {tokens : List Str} {cs os s k : Int} {r : List Chunk}
    (h : Trace tokens cs os s k r) : r ≠ [] := by
  cases h <;> simp

theorem trace_wf {tokens : List Str} {cs os s k : Int} {r : List Chunk} (hcs : 1 ≤ cs)
    (h : Trace tokens cs os s k r) : ∀ c ∈ r, c.WellFormed tokens cs := by
  induction h with
  | last s k h0 hs he =>
    intro c hc
    simp only [List.mem_singleton] at hc
    subst hc
    refine ⟨h0, hs, ?_, ?_, ?_, rfl⟩
    · simp only []; omega
    · simp only []; omega
    · simp only [true_iff]; exact he
  | step s k r h0 he hr ih =>
    intro c hc
    rcases List.mem_cons.1 hc with rfl | hc
    · refine ⟨h0, by simp only []; omega, ?_, ?_, ?_, rfl⟩
      · simp only []; omega
      · simp only []; omega
      · simp only [Bool.false_eq_true, false_iff]; omega
    · exact ih c hc

theorem trace_chain {tokens : List Str} {cs os s k : Int} {r : List Chunk} (hcs : 1 ≤ cs)
    (h : Trace tokens cs os s k r) : List.Chain' (Chunk.Next tokens cs os) r := by
  induction h with
  | last s k h0 hs he => exact List.chain'_singleton _
  | step s k r h0 he hr ih =>
    obtain ⟨c, rest, rfl, hcs', hck, -, -⟩ := trace_head hcs hr
    refine List.Chain'.cons' ih ?_
    intro y hy
    simp only [List.head?_cons, Option.mem_def, Option.some.injEq] at hy
    subst hy
    exact ⟨he, hcs', hck⟩

theorem trace_dropLast {tokens : List Str} {cs os s k : Int} {r : List Chunk}
    (h : Trace tokens cs os s k r) :
    ∀ c ∈ r.dropLast, c.startToken + cs < (tokens.length : Int) := by
  induction h with
  | last s k h0 hs he => simp
  | step s k r h0 he hr ih =>
    intro c hc
    rw [List.dropLast_cons_of_ne_nil (trace_ne_nil hr)] at hc
    rcases List.mem_cons.1 hc with rfl | hc
    · exact he
    · exact ih c hc

theorem trace_getLast {tokens : List Str} {cs os s k : Int} {r : List Chunk}
    (h : Trace tokens cs os s k r) :
    ∃ c, r.getLast? = some c ∧ (tokens.length : Int) ≤ c.startToken + cs := by
  induction h with
  | last s k h0 hs he => exact ⟨_, rfl, he⟩
  | step s k r h0 he hr ih =>
    obtain ⟨c, hc, hle⟩ := ih
    refine ⟨c, ?_, hle⟩
    obtain ⟨d, rest, rfl⟩ := List.exists_cons_of_ne_nil (trace_ne_nil hr)
    rw [List.getLast?_cons_cons]
    exact hc

theorem trace_ids {tokens : List Str} {cs os s k : Int} {r : List Chunk}
    (h : Trace tokens cs os s k r) :
    r.map Chunk.id = (List.range r.length).map (fun (i : Nat) => k + (i : Int)) := by
  induction h with
  | last s k h0 hs he => simp [List.range_succ_eq_map]
  | step s k r h0 he hr ih =>
    rw [List.map_cons, ih, List.length_cons, List.range_succ_eq_map, List.map_cons,
      List.map_map]
    simp only [Nat.cast_zero, add_zero, List.cons.injEq, true_and]
    apply List.map_congr_left
    intro i _
    simp only [Function.comp_apply, Nat.succ_eq_add_one, Nat.cast_add, Nat.cast_one]
    omega

theorem trace_length {tokens : List Str} {cs os s k : Int} {r : List Chunk} (hcs : 1 ≤ cs)
    (h : Trace tokens cs os s k r) :
    (r.length : Int) ≤ (tokens.length : Int) - s := by
  induction h with
  | last s k h0 hs he => simp only [List.length_singleton, Nat.cast_one]; omega
  | step s k r h0 he hr ih =>
    simp only [List.length_cons, Nat.cast_add, Nat.cast_one]
    split at ih <;> omega

/-- A loop state has one trace. -/
theorem trace_unique {tokens : List Str} {cs os s k : Int} {r r' : List Chunk}
    (h : Trace tokens cs os s k r) (h' : Trace tokens cs os s k r') : r = r' := by
  induction h generalizing r' with
  | last s k h0 hs he =>
    cases h' with
    | last _ _ _ _ _ => rfl
    | step _ _ _ _ he' _ => omega
  | step s k r h0 he hr ih =>
    cases h' with
    | last _ _ _ _ he' => omega
    | step _ _ r2 _ _ hr' => rw [ih hr']

theorem trace_last_inv {tokens : List Str} {cs os s k : Int} {r : List Chunk}
    (h : Trace tokens cs os s k r) (he : (tokens.length : Int) ≤ s + cs) :
    r = [{ id := k
           text := detokenize ((tokens.drop s.toNat).take ((tokens.length : Int) - s).toNat)
           tokenCount := (tokens.length : Int) - s
           startToken := s
           endToken := (tokens.length : Int) - 1
           isLastChunk := true }] := by
  cases h with
  | last _ _ _ _ _ => rfl
  | step _ _ _ _ he' _ => omega

theorem trace_step_inv {tokens : List Str} {cs os s k : Int} {r : List Chunk}
    (h : Trace tokens cs os s k r) (he : s + cs < (tokens.length : Int)) (s' : Int)
    (hs' : (if s + cs - os ≤ s then s + cs else s + cs - os) = s') :
    ∃ r', Trace tokens cs os s' (k + 1) r' ∧
      r = { id := k
            text := detokenize ((tokens.drop s.toNat).take cs.toNat)
            tokenCount := cs
            startToken := s
            endToken := s + cs - 1
            isLastChunk := false } :: r' := by
  cases h with
  | last _ _ _ _ he' => omega
  | step _ _ r2 _ _ hr' => exact ⟨r2, hs' ▸ hr', rfl⟩

theorem trace_cover {tokens : List Str} {cs os s k : Int} {r : List Chunk}
    (hos : 0 ≤ os) (h : Trace tokens cs os s k r) :
    ∀ i : Int, s ≤ i → i < (tokens.length : Int) →
      ∃ c ∈ r, c.startToken ≤ i ∧ i ≤ c.endToken := by
  induction h with
  | last s k h0 hs he =>
    intro i h1 h2
    exact ⟨_, List.mem_singleton.2 rfl, h1, by simp only []; omega⟩
  | step s k r h0 he hr ih =>
    intro i h1 h2
    by_cases hi : i ≤ s + cs - 1
    · exact ⟨_, List.mem_cons_self _ _, h1, hi⟩
    · obtain ⟨c, hc, hci⟩ := ih i (by split <;> omega) h2
      exact ⟨c, List.mem_cons_of_mem _ hc, hci⟩

theorem trace_getLast_id {tokens : List Str} {cs os s k : Int} {r : List Chunk}
    (h : Trace tokens cs os s k r) :
    ∃ c, r.getLast? = some c ∧ c.id = k + (r.length : Int) - 1 := by
  induction h with
  | last s k h0 hs he => exact ⟨_, rfl, by simp⟩
  | step s k r h0 he hr ih =>
    obtain ⟨c, hc, hid⟩ := ih
    refine ⟨c, ?_, by rw [hid, List.length_cons]; push_cast; omega⟩
    obtain ⟨d, rest, rfl⟩ := List.exists_cons_of_ne_nil (trace_ne_nil hr)
    rw [List.getLast?_cons_cons]
    exact hc

/-- With `overlapSize ≥ chunkSize` the windows of a trace are the consecutive blocks of
`chunkSize` tokens from `s` on. -/
theorem trace_blocks {tokens : List Str} {cs os s k : Int} {r : List Chunk}
    (hos : cs ≤ os) (h : Trace tokens cs os s k r) :
    (((r.length : Int) - 1) * cs < (tokens.length : Int) - s ∧
      (tokens.length : Int) - s ≤ (r.length : Int) * cs) ∧
    ∀ (i : Nat) (c : Chunk), r[i]? = some c →
      c.startToken = s + (i : Int) * cs ∧
      c.endToken = min (s + ((i : Int) + 1) * cs) (tokens.length : Int) - 1 := by
  induction h with
  | last s k h0 hs he =>
    refine ⟨by simp only [List.length_singleton, Nat.cast_one]; omega, ?_⟩
    intro i c hc
    cases i with
    | zero =>
      simp only [List.getElem?_cons_zero, Option.some.injEq] at hc
      subst hc
      dsimp only
      simp only [Nat.cast_zero, zero_mul, add_zero, zero_add, one_mul, true_and]
      omega
    | succ j => simp at hc
  | step s k r h0 he hr ih =>
    rw [if_pos (by omega)] at ih
    obtain ⟨⟨ih1, ih2⟩, ih3⟩ := ih
    refine ⟨?_, ?_⟩
    · simp only [List.length_cons, Nat.cast_add, Nat.cast_one]
      constructor <;> nlinarith
    · intro i c hc
      cases i with
      | zero =>
        simp only [List.getElem?_cons_zero, Option.some.injEq] at hc
        subst hc
        dsimp only
        simp only [Nat.cast_zero, zero_mul, add_zero, zero_add, one_mul, true_and]
        omega
      | succ j =>
        simp only [List.getElem?_cons_succ] at hc
        obtain ⟨h1, h2⟩ := ih3 j c hc
        refine ⟨?_, ?_⟩
        · rw [h1]; push_cast; ring
        · rw [h2]; push_cast; ring_nf

/-- For `chunkSize ≥ 1` and `overlapSize ≥ 0` the function `chunkText` returns, with
the same result for every fuel of at least the number of tokens: the empty list on
a text without tokens, the trace from `(0, 1)` otherwise. -/
theorem chunkText_run (text : Str) (cs os : Int) (hcs : 1 ≤ cs) (hos : 0 ≤ os) :
    ∃ r, (∀ fuel : Nat, (tokenize text).length ≤ fuel → chunkText fuel text cs os = some r) ∧
      (((tokenize text).length = 0 ∧ r = []) ∨
        (0 < (tokenize text).length ∧ Trace (tokenize text) cs os 0 1 r)) := by
  obtain ⟨r, hr, hcase⟩ := chunkText_trace text cs os hcs hos _ le_rfl
  refine ⟨r, ?_, hcase⟩
  intro fuel hfuel
  obtain ⟨r', hr', hcase'⟩ := chunkText_trace text cs os hcs hos fuel hfuel
  rw [hr']
  rcases hcase with ⟨h0, rfl⟩ | ⟨hpos, ht⟩
  · rcases hcase' with ⟨-, rfl⟩ | ⟨hpos', -⟩
    · rfl
    · omega
  · rcases hcase' with ⟨h0, -⟩ | ⟨-, ht'⟩
    · omega
    · rw [trace_unique ht' ht]

/-! ## Facts about the tokenizer -/

theorem tokenize_eq_scanRuns (text : Str) : tokenize text = scanRuns text [] := by
  unfold tokenize matchNonSpace
  cases scanRuns text [] <;> rfl

theorem scanRuns_append (t : Str) (ht : ∀ c ∈ t, isWhiteSpace c = false) :
    ∀ (rest run : Str), scanRuns (t ++ rest) run = scanRuns rest (run ++ t) := by
  induction t with
  | nil => intro rest run; simp
  | cons c cs ih =>
    intro rest run
    have hc : isWhiteSpace c = false := ht c (List.mem_cons_self _ _)
    have step : scanRuns (c :: (cs ++ rest)) run = scanRuns (cs ++ rest) (run ++ [c]) := by
      simp only [scanRuns, hc, Bool.false_eq_true, if_false]
    rw [List.cons_append, step, ih (fun d hd => ht d (List.mem_cons_of_mem _ hd))]
    simp

/-- The scan, started with a run in progress, lists the maximal runs of that run
followed by the rest of the text. -/
theorem scanRuns_maximalRuns (text : Str) :
    ∀ run : Str, (∀ c ∈ run, isWhiteSpace c = false) →
      MaximalRuns (run ++ text) (scanRuns text run) := by
  induction text with
  | nil =>
    intro run hrun
    cases run with
    | nil => exact MaximalRuns.nil
    | cons d ds =>
      simp only [scanRuns, List.isEmpty_cons, Bool.false_eq_true, if_false]
      exact MaximalRuns.run (d :: ds) [] [] (by simp) hrun (by simp) MaximalRuns.nil
  | cons c cs ih =>
    intro run hrun
    by_cases hc : isWhiteSpace c = true
    · have hrest : MaximalRuns (c :: cs) (scanRuns cs []) :=
        MaximalRuns.space c cs _ hc (by simpa using ih [] (by simp))
      cases run with
      | nil => simpa [scanRuns, hc] using hrest
      | cons d ds =>
        simp only [scanRuns, hc, List.isEmpty_cons, Bool.false_eq_true, if_true, if_false]
        exact MaximalRuns.run (d :: ds) (c :: cs) _ (by simp) hrun
          (by intro x hx; simp only [List.head?_cons, Option.some.injEq] at hx; rw [← hx]; exact hc)
          hrest
    · have hc' : isWhiteSpace c = false := by simpa using hc
      simp only [scanRuns, hc', Bool.false_eq_true, if_false]
      have := ih (run ++ [c]) (by
        intro x hx
        rcases List.mem_append.1 hx with hx | hx
        · exact hrun x hx
        · rw [List.mem_singleton.1 hx]; exact hc')
      simpa using this

theorem maximalRuns_eq_scanRuns {text : Str} {toks : List Str} (h : MaximalRuns text toks) :
    toks = scanRuns text [] := by
  induction h with
  | nil => rfl
  | space c cs ts hc h ih => simpa [scanRuns, hc] using ih
  | run t rest ts hne ht hrest h ih =>
    rw [scanRuns_append t ht, List.nil_append]
    cases rest with
    | nil =>
      cases t with
      | nil => exact absurd rfl hne
      | cons d ds =>
        simp only [scanRuns, List.isEmpty_cons, List.isEmpty_nil, Bool.false_eq_true, if_false,
          if_true] at ih ⊢
        rw [ih]
    | cons c cs =>
      have hc : isWhiteSpace c = true := hrest c rfl
      cases t with
      | nil => exact absurd rfl hne
      | cons d ds =>
        simp only [scanRuns, hc, List.isEmpty_cons, List.isEmpty_nil, Bool.false_eq_true,
          if_false, if_true] at ih ⊢
        rw [ih]

theorem maximalRuns_tokens {text : Str} {toks : List Str} (h : MaximalRuns text toks) :
    ∀ t ∈ toks, t ≠ [] ∧ ∀ c ∈ t, isWhiteSpace c = false := by
  induction h with
  | nil => simp
  | space c cs ts hc h ih => exact ih
  | run t rest ts hne ht hrest h ih =>
    intro u hu
    rcases List.mem_cons.1 hu with rfl | hu
    · exact ⟨hne, ht⟩
    · exact ih u hu

theorem scanRuns_eq_nil (text : Str) :
    ∀ run : Str, scanRuns text run = [] ↔ run = [] ∧ ∀ c ∈ text, isWhiteSpace c = true := by
  induction text with
  | nil => intro run; cases run <;> simp [scanRuns]
  | cons c cs ih =>
    intro run
    by_cases hc : isWhiteSpace c = true
    · cases run with
      | nil => simp [scanRuns, hc, ih]
      | cons d ds => simp [scanRuns, hc]
    · have hc' : isWhiteSpace c = false := by simpa using hc
      simp [scanRuns, hc', ih]

theorem tokenize_eq_nil (text : Str) :
    tokenize text = [] ↔ ∀ c ∈ text, isWhiteSpace c = true := by
  rw [tokenize_eq_scanRuns, scanRuns_eq_nil]
  simp

/-- The method `join` is the library function `List.intercalate`. -/
theorem join_eq_intercalate (sep : Str) (xs : List Str) :
    join sep xs = List.intercalate sep xs := by
  induction xs with
  | nil => rfl
  | cons t rest ih =>
    cases rest with
    | nil => simp [join, List.intercalate]
    | cons u rest =>
      rw [join, ih]
      simp [List.intercalate, List.intersperse]

theorem card_Icc_inter (a b c d : Int) (hac : a ≤ c) (hbd : b ≤ d) :
    ((Finset.Icc a b ∩ Finset.Icc c d).card : Int) = ((b + 1 - c).toNat : Int) := by
  have : Finset.Icc a b ∩ Finset.Icc c d = Finset.Icc c b := by
    ext x
    simp only [Finset.mem_inter, Finset.mem_Icc]
    omega
  rw [this, Int.card_Icc]

/-! ## The chunker: overlap, termination, numbering, coverage -/

/-- C1: for `chunkSize ≥ 1`, `0 ≤ overlapSize < chunkSize` and a text with more than
`chunkSize` tokens, `chunkText` returns chunks in which every chunk after the first
starts at the previous chunk's `endToken + 1 - overlapSize`, ends no earlier than the
previous chunk, and shares exactly `overlapSize` token indices with it. With 1000
tokens, `chunkSize = 400` and `overlapSize = 25` the chunks are `[0,399]`, `[375,774]`
and `[750,999]`, the last with `tokenCount = 250` and `isLastChunk = true`. -/
theorem chunkText_consecutive_overlap (text : Str) (cs os : Int) (hcs : 1 ≤ cs)
    (hos : 0 ≤ os) (hlt : os < cs) (hn : cs < ((tokenize text).length : Int)) :
    ∃ chunks,
      (∀ fuel : Nat, (tokenize text).length ≤ fuel →
        chunkText fuel text cs os = some chunks) ∧
      List.Chain' (fun a b =>
        b.startToken = a.endToken + 1 - os ∧ a.endToken ≤ b.endToken ∧
        ((Finset.Icc a.startToken a.endToken ∩ Finset.Icc b.startToken b.endToken).card : Int)
          = os) chunks ∧
      ((tokenize text).length = 1000 → cs = 400 → os = 25 →
        chunks.map Chunk.summary =
          [(1, 0, 399, 400, false), (2, 375, 774, 400, false), (3, 750, 999, 250, true)]) := by
  obtain ⟨r, hrun, hcase⟩ := chunkText_run text cs os hcs hos
  refine ⟨r, hrun, ?_⟩
  rcases hcase with ⟨h0, -⟩ | ⟨-, ht⟩
  · omega
  · have hwf := trace_wf hcs ht
    refine ⟨(List.Chain'.iff_mem.1 (trace_chain hcs ht)).imp ?_, ?_⟩
    · rintro a b ⟨ha, hb, hnext, hstart, -⟩
      obtain ⟨ha0, -, hae, -, -, -⟩ := hwf a ha
      obtain ⟨-, hbn, hbe, -, -, -⟩ := hwf b hb
      have h1 : b.startToken = a.endToken + 1 - os := by omega
      have h2 : a.endToken ≤ b.endToken := by omega
      refine ⟨h1, h2, ?_⟩
      rw [card_Icc_inter _ _ _ _ (by omega) h2, Int.toNat_of_nonneg (by omega)]
      omega
    · intro hlen h400 h25
      subst h400 h25
      obtain ⟨r1, ht1, rfl⟩ := trace_step_inv ht (by omega) 375 (by norm_num)
      obtain ⟨r2, ht2, rfl⟩ := trace_step_inv ht1 (by omega) 750 (by norm_num)
      have h3 := trace_last_inv ht2 (by omega)
      subst h3
      simp [Chunk.summary, hlen]

set_option maxRecDepth 1000000 in
theorem chunkText_consecutive_overlap_witness :
    ∃ chunks, chunkText 1000 (words 1000) 400 25 = some chunks ∧
      chunks.map Chunk.summary =
        [(1, 0, 399, 400, false), (2, 375, 774, 400, false), (3, 750, 999, 250, true)] :=
  have hlen : (tokenize (words 1000)).length = 1000 := by decide
  let ⟨chunks, hrun, _, hA⟩ := chunkText_consecutive_overlap (words 1000) 400 25
    (by decide) (by decide) (by decide) (by rw [hlen]; decide)
  ⟨chunks, hrun 1000 (by rw [hlen]), hA hlen rfl rfl⟩

/-- C2: for `chunkSize ≥ 1` and `overlapSize ≥ 0`, `chunkText` terminates (it returns
the same list for every fuel of at least the number of tokens), the `startToken` of
each chunk after the first is strictly greater than that of the chunk before it, and
at most `len(tokens)` chunks are produced. -/
theorem chunkText_terminates (text : Str) (cs os : Int) (hcs : 1 ≤ cs) (hos : 0 ≤ os) :
    ∃ chunks,
      (∀ fuel : Nat, (tokenize text).length ≤ fuel →
        chunkText fuel text cs os = some chunks) ∧
      List.Chain' (fun a b => a.startToken < b.startToken) chunks ∧
      chunks.length ≤ (tokenize text).length := by
  obtain ⟨r, hrun, hcase⟩ := chunkText_run text cs os hcs hos
  refine ⟨r, hrun, ?_⟩
  rcases hcase with ⟨-, rfl⟩ | ⟨-, ht⟩
  · exact ⟨List.chain'_nil, Nat.zero_le _⟩
  · refine ⟨(trace_chain hcs ht).imp ?_, ?_⟩
    · rintro a b ⟨-, hstart, -⟩
      rw [hstart]
      split <;> omega
    · have := trace_length hcs ht
      omega

theorem chunkText_terminates_witness :
    ∃ chunks, chunkText 5 ['a', ' ', 'b', ' ', 'c', ' ', 'd', ' ', 'e'] 2 1 = some chunks ∧
      List.Chain' (fun a b => a.startToken < b.startToken) chunks ∧ chunks.length ≤ 5 :=
  let ⟨chunks, hrun, hchain, hlen⟩ := chunkText_terminates
    ['a', ' ', 'b', ' ', 'c', ' ', 'd', ' ', 'e'] 2 1 (by decide) (by decide)
  ⟨chunks, hrun 5 (by decide), hchain, hlen⟩

/-- C3: for `chunkSize ≥ 1` and `overlapSize ≥ chunkSize`, `chunkText` returns exactly
`ceil(len(tokens) / chunkSize)` chunks, and the `k`-th chunk (1-based) covers the token
indices from `(k-1) * chunkSize` to `min(k * chunkSize, len(tokens)) - 1`. With 50
tokens and `chunkSize = 10` these are `[0,9]`, `[10,19]`, `[20,29]`, `[30,39]`,
`[40,49]`. -/
theorem chunkText_degrades_to_blocks (text : Str) (cs os : Int) (hcs : 1 ≤ cs)
    (hos : cs ≤ os) :
    ∃ chunks,
      (∀ fuel : Nat, (tokenize text).length ≤ fuel →
        chunkText fuel text cs os = some chunks) ∧
      (chunks.length : Int) = ⌈(((tokenize text).length : Int) : ℚ) / (cs : ℚ)⌉ ∧
      (∀ k : Nat, 1 ≤ k → k ≤ chunks.length →
        ∃ c, chunks[k - 1]? = some c ∧
          c.startToken = ((k : Int) - 1) * cs ∧
          c.endToken = min ((k : Int) * cs) ((tokenize text).length : Int) - 1) ∧
      ((tokenize text).length = 50 → cs = 10 →
        chunks.map Chunk.range = [(0, 9), (10, 19), (20, 29), (30, 39), (40, 49)]) := by
  obtain ⟨r, hrun, hcase⟩ := chunkText_run text cs os hcs (by omega)
  refine ⟨r, hrun, ?_⟩
  have hcsQ : (0 : ℚ) < (cs : ℚ) := by exact_mod_cast (by omega : (0 : Int) < cs)
  rcases hcase with ⟨h0, rfl⟩ | ⟨-, ht⟩
  · refine ⟨?_, ?_, ?_⟩
    · simp [h0]
    · intro k h1 hk
      simp at hk
      omega
    · intro h50
      omega
  · obtain ⟨⟨hlo, hhi⟩, hidx⟩ := trace_blocks hos ht
    refine ⟨?_, ?_, ?_⟩
    · symm
      rw [Int.ceil_eq_iff]
      constructor
      · rw [lt_div_iff₀ hcsQ]
        have : (((r.length : Int) - 1) * cs : Int) < ((tokenize text).length : Int) := by
          omega
        exact_mod_cast this
      · rw [div_le_iff₀ hcsQ]
        have : (((tokenize text).length : Int)) ≤ (r.length : Int) * cs := by omega
        exact_mod_cast this
    · intro k h1 hk
      have hk' : k - 1 < r.length := by omega
      refine ⟨r[k - 1], List.getElem?_eq_getElem hk', ?_⟩
      obtain ⟨e1, e2⟩ := hidx (k - 1) r[k - 1] (List.getElem?_eq_getElem hk')
      have hcast : ((k - 1 : Nat) : Int) = (k : Int) - 1 := by omega
      rw [hcast] at e1 e2
      refine ⟨by rw [e1]; ring, ?_⟩
      rw [e2]
      congr 2
      ring
    · intro hlen h10
      subst h10
      have hif : ∀ s : Int, (if s + 10 - os ≤ s then s + 10 else s + 10 - os) = s + 10 :=
        fun s => if_pos (by omega)
      obtain ⟨r1, ht1, rfl⟩ := trace_step_inv ht (by omega) 10 (hif 0)
      obtain ⟨r2, ht2, rfl⟩ := trace_step_inv ht1 (by omega) 20 (hif 10)
      obtain ⟨r3, ht3, rfl⟩ := trace_step_inv ht2 (by omega) 30 (hif 20)
      obtain ⟨r4, ht4, rfl⟩ := trace_step_inv ht3 (by omega) 40 (hif 30)
      have h5 := trace_last_inv ht4 (by omega)
      subst h5
      simp [Chunk.range, hlen]

set_option maxRecDepth 100000 in
theorem chunkText_degrades_to_blocks_witness :
    ∃ chunks, chunkText 50 (words 50) 10 10 = some chunks ∧
      chunks.map Chunk.range = [(0, 9), (10, 19), (20, 29), (30, 39), (40, 49)] :=
  have hlen : (tokenize (words 50)).length = 50 := by decide
  let ⟨chunks, hrun, _, _, hC⟩ := chunkText_degrades_to_blocks (words 50) 10 10
    (by decide) (by decide)
  ⟨chunks, hrun 50 (by rw [hlen]), hC hlen rfl⟩

/-- C4: for `chunkSize ≥ 1` and `overlapSize ≥ 0`, the ids of the chunks returned by
`chunkText` are, in order, `1, 2, ..., N` for `N` the number of chunks, and `N = 0`
(the empty list is returned) exactly when the text has no token, that is when every
character of the text is whitespace. -/
theorem chunkText_ids (text : Str) (cs os : Int) (hcs : 1 ≤ cs) (hos : 0 ≤ os) :
    ∃ chunks,
      (∀ fuel : Nat, (tokenize text).length ≤ fuel →
        chunkText fuel text cs os = some chunks) ∧
      chunks.map Chunk.id = (List.range chunks.length).map (fun (i : Nat) => (i : Int) + 1) ∧
      (chunks.length = 0 ↔ (tokenize text).length = 0) ∧
      ((tokenize text).length = 0 ↔ ∀ c ∈ text, isWhiteSpace c = true) := by
  obtain ⟨r, hrun, hcase⟩ := chunkText_run text cs os hcs hos
  refine ⟨r, hrun, ?_, ?_, ?_⟩
  · rcases hcase with ⟨-, rfl⟩ | ⟨-, ht⟩
    · rfl
    · rw [trace_ids ht]
      apply List.map_congr_left
      intro i _
      omega
  · rcases hcase with ⟨h0, rfl⟩ | ⟨hpos, ht⟩
    · simp [h0]
    · have := trace_ne_nil ht
      constructor
      · intro h
        exact absurd (List.length_eq_zero.1 h) this
      · intro h
        omega
  · rw [List.length_eq_zero, tokenize_eq_nil]

theorem chunkText_ids_witness :
    ∃ chunks, chunkText 5 ['a', ' ', 'b', ' ', 'c', ' ', 'd', ' ', 'e'] 2 1 = some chunks ∧
      chunks.map Chunk.id = (List.range chunks.length).map (fun (i : Nat) => (i : Int) + 1) :=
  let ⟨chunks, hrun, hids, _⟩ := chunkText_ids
    ['a', ' ', 'b', ' ', 'c', ' ', 'd', ' ', 'e'] 2 1 (by decide) (by decide)
  ⟨chunks, hrun 5 (by decide), hids⟩

/-- C5: for `chunkSize ≥ 1` and `overlapSize ≥ 0`, every chunk returned by `chunkText`
other than the final one has `tokenCount = chunkSize`, and the final chunk has
`1 ≤ tokenCount ≤ chunkSize`. -/
theorem chunkText_tokenCount (text : Str) (cs os : Int) (hcs : 1 ≤ cs) (hos : 0 ≤ os) :
    ∃ chunks,
      (∀ fuel : Nat, (tokenize text).length ≤ fuel →
        chunkText fuel text cs os = some chunks) ∧
      (∀ c ∈ chunks.dropLast, c.tokenCount = cs) ∧
      (∀ c, chunks.getLast? = some c → 1 ≤ c.tokenCount ∧ c.tokenCount ≤ cs) := by
  obtain ⟨r, hrun, hcase⟩ := chunkText_run text cs os hcs hos
  refine ⟨r, hrun, ?_⟩
  rcases hcase with ⟨-, rfl⟩ | ⟨-, ht⟩
  · simp
  · have hwf := trace_wf hcs ht
    constructor
    · intro c hc
      obtain ⟨-, -, he, htc, -, -⟩ := hwf c (List.mem_of_mem_dropLast hc)
      have := trace_dropLast ht c hc
      omega
    · intro c hc
      obtain ⟨d, hd, hle⟩ := trace_getLast ht
      rw [hc, Option.some.injEq] at hd
      subst hd
      obtain ⟨-, hlt, he, htc, -, -⟩ := hwf c (List.mem_of_getLast?_eq_some hc)
      omega

theorem chunkText_tokenCount_witness :
    ∃ chunks, chunkText 5 ['a', ' ', 'b', ' ', 'c', ' ', 'd', ' ', 'e'] 3 1 = some chunks ∧
      (∀ c ∈ chunks.dropLast, c.tokenCount = 3) ∧
      (∀ c, chunks.getLast? = some c → 1 ≤ c.tokenCount ∧ c.tokenCount ≤ 3) :=
  let ⟨chunks, hrun, h1, h2⟩ := chunkText_tokenCount
    ['a', ' ', 'b', ' ', 'c', ' ', 'd', ' ', 'e'] 3 1 (by decide) (by decide)
  ⟨chunks, hrun 5 (by decide), h1, h2⟩

/-- C6: for a text with at least one token, `chunkSize ≥ 1` and `overlapSize ≥ 0`, a
chunk returned by `chunkText` has `isLastChunk = true` if and only if its `endToken` is
`len(tokens) - 1`, exactly one returned chunk has `isLastChunk = true`, and that chunk
is the final element of the result, whose id is the greatest. -/
theorem chunkText_isLastChunk (text : Str) (cs os : Int) (hcs : 1 ≤ cs) (hos : 0 ≤ os)
    (hpos : 0 < (tokenize text).length) :
    ∃ chunks,
      (∀ fuel : Nat, (tokenize text).length ≤ fuel →
        chunkText fuel text cs os = some chunks) ∧
      (∀ c ∈ chunks,
        (c.isLastChunk = true ↔ c.endToken = ((tokenize text).length : Int) - 1)) ∧
      (chunks.filter (fun c => c.isLastChunk)).length = 1 ∧
      ∃ c, chunks.getLast? = some c ∧ c.isLastChunk = true ∧ ∀ d ∈ chunks, d.id ≤ c.id := by
  obtain ⟨r, hrun, hcase⟩ := chunkText_run text cs os hcs hos
  refine ⟨r, hrun, ?_⟩
  rcases hcase with ⟨h0, -⟩ | ⟨-, ht⟩
  · omega
  · have hwf := trace_wf hcs ht
    obtain ⟨c, hc, hle⟩ := trace_getLast ht
    obtain ⟨c', hc', hid⟩ := trace_getLast_id ht
    rw [hc, Option.some.injEq] at hc'
    subst hc'
    have hclast : c.isLastChunk = true := by
      obtain ⟨-, -, -, -, hl, -⟩ := hwf c (List.mem_of_getLast?_eq_some hc)
      exact hl.2 hle
    refine ⟨?_, ?_, c, hc, hclast, ?_⟩
    · intro d hd
      obtain ⟨-, hlt, he, -, hl, -⟩ := hwf d hd
      rw [hl]
      omega
    · have hsplit : r.dropLast ++ [c] = r := List.dropLast_append_getLast? c hc
      have hnone : r.dropLast.filter (fun c => c.isLastChunk) = [] := by
        rw [List.filter_eq_nil_iff]
        intro d hd
        obtain ⟨-, -, -, -, hl, -⟩ := hwf d (List.mem_of_mem_dropLast hd)
        have := trace_dropLast ht d hd
        intro hdl
        have := hl.1 hdl
        omega
      rw [← hsplit, List.filter_append, hnone]
      simp [hclast]
    · intro d hd
      have hmem : d.id ∈ r.map Chunk.id := List.mem_map_of_mem _ hd
      rw [trace_ids ht] at hmem
      obtain ⟨i, hi, hdi⟩ := List.mem_map.1 hmem
      rw [List.mem_range] at hi
      omega

theorem chunkText_isLastChunk_witness :
    ∃ chunks, chunkText 5 ['a', ' ', 'b', ' ', 'c', ' ', 'd', ' ', 'e'] 3 1 = some chunks ∧
      (chunks.filter (fun c => c.isLastChunk)).length = 1 ∧
      ∃ c, chunks.getLast? = some c ∧ c.isLastChunk = true ∧ ∀ d ∈ chunks, d.id ≤ c.id :=
  let ⟨chunks, hrun, _, h1, h2⟩ := chunkText_isLastChunk
    ['a', ' ', 'b', ' ', 'c', ' ', 'd', ' ', 'e'] 3 1 (by decide) (by decide) (by decide)
  ⟨chunks, hrun 5 (by decide), h1, h2⟩

/-- C7: for a text with at least one token, `chunkSize ≥ 1` and `overlapSize ≥ 0`, the
chunks returned by `chunkText` cover the token sequence with no gap: the first chunk
starts at 0, the last chunk ends at `len(tokens) - 1`, every later chunk starts at
most at the previous chunk's `endToken + 1`, and every token index lies in the range
of at least one chunk. -/
theorem chunkText_covers (text : Str) (cs os : Int) (hcs : 1 ≤ cs) (hos : 0 ≤ os)
    (hpos : 0 < (tokenize text).length) :
    ∃ chunks,
      (∀ fuel : Nat, (tokenize text).length ≤ fuel →
        chunkText fuel text cs os = some chunks) ∧
      chunks.head?.map Chunk.startToken = some 0 ∧
      chunks.getLast?.map Chunk.endToken = some (((tokenize text).length : Int) - 1) ∧
      List.Chain' (fun a b => b.startToken ≤ a.endToken + 1) chunks ∧
      ∀ i : Int, 0 ≤ i → i < ((tokenize text).length : Int) →
        ∃ c ∈ chunks, c.startToken ≤ i ∧ i ≤ c.endToken := by
  obtain ⟨r, hrun, hcase⟩ := chunkText_run text cs os hcs hos
  refine ⟨r, hrun, ?_⟩
  rcases hcase with ⟨h0, -⟩ | ⟨-, ht⟩
  · omega
  · have hwf := trace_wf hcs ht
    refine ⟨?_, ?_, ?_, trace_cover hos ht⟩
    · obtain ⟨c, rest, rfl, hs, -⟩ := trace_head hcs ht
      simp [hs]
    · obtain ⟨c, hc, hle⟩ := trace_getLast ht
      obtain ⟨-, hlt, he, -, -, -⟩ := hwf c (List.mem_of_getLast?_eq_some hc)
      rw [hc, Option.map_some']
      congr 1
      omega
    · refine (List.Chain'.iff_mem.1 (trace_chain hcs ht)).imp ?_
      rintro a b ⟨ha, -, hnext, hstart, -⟩
      obtain ⟨-, -, hae, -, -, -⟩ := hwf a ha
      omega

theorem chunkText_covers_witness :
    ∃ chunks, chunkText 5 ['a', ' ', 'b', ' ', 'c', ' ', 'd', ' ', 'e'] 3 1 = some chunks ∧
      chunks.head?.map Chunk.startToken = some 0 ∧
      chunks.getLast?.map Chunk.endToken = some 4 :=
  let ⟨chunks, hrun, h1, h2, _⟩ := chunkText_covers
    ['a', ' ', 'b', ' ', 'c', ' ', 'd', ' ', 'e'] 3 1 (by decide) (by decide) (by decide)
  ⟨chunks, hrun 5 (by decide), h1, h2⟩

/-- C8: for `chunkSize ≥ 1` and `overlapSize ≥ 0`, every chunk `c` returned by
`chunkText` is consistent with `tokens = tokenize(text)`:
`0 ≤ c.startToken ≤ c.endToken < len(tokens)`,
`c.tokenCount = c.endToken - c.startToken + 1`, and `c.text` is `detokenize` of the
tokens at indices `c.startToken..c.endToken`, that is those tokens joined by single
spaces. -/
theorem chunkText_chunk_consistent (text : Str) (cs os : Int) (hcs : 1 ≤ cs)
    (hos : 0 ≤ os) :
    ∃ chunks,
      (∀ fuel : Nat, (tokenize text).length ≤ fuel →
        chunkText fuel text cs os = some chunks) ∧
      ∀ c ∈ chunks,
        0 ≤ c.startToken ∧ c.startToken ≤ c.endToken ∧
        c.endToken < ((tokenize text).length : Int) ∧
        c.tokenCount = c.endToken - c.startToken + 1 ∧
        c.text = detokenize (((tokenize text).drop c.startToken.toNat).take
          (c.endToken - c.startToken + 1).toNat) ∧
        c.text = List.intercalate [' '] (((tokenize text).drop c.startToken.toNat).take
          (c.endToken - c.startToken + 1).toNat) := by
  obtain ⟨r, hrun, hcase⟩ := chunkText_run text cs os hcs hos
  refine ⟨r, hrun, ?_⟩
  rcases hcase with ⟨-, rfl⟩ | ⟨-, ht⟩
  · simp
  · intro c hc
    obtain ⟨h0, hlt, he, htc, -, htext⟩ := trace_wf hcs ht c hc
    rw [htc] at htext
    refine ⟨h0, by omega, by omega, htc, htext, ?_⟩
    rw [htext, detokenize, join_eq_intercalate]

theorem chunkText_chunk_consistent_witness :
    ∃ chunks, chunkText 5 ['a', ' ', 'b', ' ', 'c', ' ', 'd', ' ', 'e'] 3 1 = some chunks ∧
      ∀ c ∈ chunks, c.text = List.intercalate [' ']
        (([['a'], ['b'], ['c'], ['d'], ['e']].drop c.startToken.toNat).take
          (c.endToken - c.startToken + 1).toNat) :=
  let ⟨chunks, hrun, h⟩ := chunkText_chunk_consistent
    ['a', ' ', 'b', ' ', 'c', ' ', 'd', ' ', 'e'] 3 1 (by decide) (by decide)
  ⟨chunks, hrun 5 (by decide), fun c hc => (h c hc).2.2.2.2.2⟩

/-! ## The tokenizer and the context assembly -/

/-- C9: `tokenize` is total and returns, from left to right, exactly the maximal runs
of non-whitespace characters of the text: no token is empty, no token has a whitespace
character, punctuation stays attached (`"Hello, world!"` gives `"Hello,"` and
`"world!"`), and the empty or whitespace-only text gives the empty sequence. -/
theorem tokenize_maximal_runs (text : Str) :
    MaximalRuns text (tokenize text) ∧
    (∀ toks, MaximalRuns text toks → toks = tokenize text) ∧
    (∀ t ∈ tokenize text, t ≠ [] ∧ ∀ c ∈ t, isWhiteSpace c = false) ∧
    (tokenize text = [] ↔ ∀ c ∈ text, isWhiteSpace c = true) ∧
    tokenize [] = [] ∧
    tokenize "Hello, world!".toList = ["Hello,".toList, "world!".toList] := by
  have hmax : MaximalRuns text (tokenize text) := by
    rw [tokenize_eq_scanRuns]
    simpa using scanRuns_maximalRuns text [] (by simp)
  refine ⟨hmax, ?_, maximalRuns_tokens hmax, tokenize_eq_nil text, by decide, by decide⟩
  intro toks h
  rw [tokenize_eq_scanRuns]
  exact maximalRuns_eq_scanRuns h

/-- C10: when the client views a document whose chunks are in ascending id order and
the selection set selects at least one of its chunks, the context that the chat
handler builds from `getSelectedChunksText` is the blocks `[Chunk <id>]: <text>` of
exactly the document chunks whose id is selected, in ascending id order, joined by a
blank line; a selection set with the same members in another order gives the same
context. -/
theorem chatContext_of_selection (st : ClientState) (cur : Str) (doc : Document)
    (hcur : st.currentDocumentId = some cur) (hne : cur ≠ [])
    (hdoc : st.documents.lookup cur = some doc)
    (hasc : doc.chunks.Pairwise (fun a b => a.id < b.id))
    (hsel : ∃ c ∈ doc.chunks, c.id ∈ st.selectedChunks) :
    ∃ picked : List Chunk,
      picked = doc.chunks.filter (fun c => decide (c.id ∈ st.selectedChunks)) ∧
      picked ≠ [] ∧
      (∀ c, c ∈ picked ↔ c ∈ doc.chunks ∧ c.id ∈ st.selectedChunks) ∧
      picked.Pairwise (fun a b => a.id < b.id) ∧
      (getSelectedChunksText st).map chatContext =
        some (List.intercalate ['\n', '\n'] (picked.map (fun c =>
          "[Chunk ".toList ++ numberToString c.id ++ "]: ".toList ++ c.text))) ∧
      ∀ sel : List Int, (∀ i, i ∈ sel ↔ i ∈ st.selectedChunks) →
        (getSelectedChunksText { st with selectedChunks := sel }).map chatContext =
          (getSelectedChunksText st).map chatContext := by
  have hempty : cur.isEmpty = false := by
    cases cur with
    | nil => exact absurd rfl hne
    | cons _ _ => rfl
  have hget : ∀ sel : List Int,
      getSelectedChunksText { st with selectedChunks := sel } =
        some ((doc.chunks.filter (fun c => decide (c.id ∈ sel))).map
          (fun c => { id := c.id, text := c.text })) := by
    intro sel
    simp only [getSelectedChunksText, getProperty, hcur, hempty, hdoc, Bool.false_eq_true,
      if_false]
    congr 2
    apply List.filter_congr
    intro c _
    simp
  refine ⟨_, rfl, ?_, ?_, hasc.filter _, ?_, ?_⟩
  · obtain ⟨c, hc, hcs⟩ := hsel
    exact List.ne_nil_of_mem (List.mem_filter.2 ⟨hc, by simpa using hcs⟩)
  · intro c
    simp [List.mem_filter]
  · have := hget st.selectedChunks
    rw [show ({ st with selectedChunks := st.selectedChunks } : ClientState) = st from rfl]
      at this
    rw [this, Option.map_some', chatContext, join_eq_intercalate, List.map_map]
    rfl
  · intro sel hsame
    have h1 := hget sel
    have h2 := hget st.selectedChunks
    rw [show ({ st with selectedChunks := st.selectedChunks } : ClientState) = st from rfl]
      at h2
    rw [h1, h2]
    congr 3
    apply List.filter_congr
    intro c _
    simp [hsame]

theorem chatContext_of_selection_witness :
    (getSelectedChunksText sampleState).map chatContext =
        some "[Chunk 1]: a\n\n[Chunk 3]: c".toList ∧
      (getSelectedChunksText { sampleState with selectedChunks := [1, 3] }).map chatContext =
        (getSelectedChunksText sampleState).map chatContext :=
  let ⟨_, hp, _, _, _, hctx, hord⟩ := chatContext_of_selection sampleState ['d']
    sampleDocument rfl (by decide) rfl (by decide)
    ⟨{ id := 1, text := ['a'], tokenCount := 1, startToken := 0, endToken := 0,
       isLastChunk := false }, by decide, by decide⟩
  ⟨hctx.trans (by rw [hp]; decide),
    hord [1, 3] (fun i => by simp [sampleState, or_comm])⟩

/-! ## The chat turn, the document store and the viewed document -/

/-- After `delete obj[key]` the own property `key` is gone and the others are as before. -/
theorem lookup_deleteProperty (obj : List (Str × Document)) (key other : Str) :
    (deleteProperty obj key).lookup other = if other = key then none else obj.lookup other := by
  induction obj with
  | nil => 
    unfold deleteProperty
    split <;> rfl
  | cons entry rest ih =>
    obtain ⟨k, d⟩ := entry
    unfold deleteProperty at ih ⊢
    by_cases hk : k = key
    · have hkb : (k == key) = true := by rw [hk]; exact beq_self_eq_true key
      rw [List.filter_cons]
      simp only [hkb, Bool.not_true, Bool.false_eq_true, if_false]
      rw [ih]
      by_cases ho : other = key
      · rw [if_pos ho, if_pos ho]
      · have hne : (other == k) = false := by rw [hk]; exact beq_false_of_ne ho
        rw [if_neg ho, if_neg ho, List.lookup_cons, hne]
    · have hkb : (k == key) = false := beq_false_of_ne hk
      rw [List.filter_cons]
      simp only [hkb, Bool.not_false, if_true]
      by_cases ho : other = k
      · have hne : (other == k) = true := by rw [ho]; exact beq_self_eq_true k
        have : ¬ other = key := by rw [ho]; exact hk
        rw [List.lookup_cons, List.lookup_cons, hne, if_neg this]
      · have hne : (other == k) = false := beq_false_of_ne ho
        rw [List.lookup_cons, List.lookup_cons, hne]
        exact ih

/-- C11: a chat turn without selected chunks is rejected before a context is built:
the chat handler answers every request whose `chunks` is missing or empty with the
validation error of status 400, and `sendChatMessage` sends no request when
`getSelectedChunksText` returns the empty list. A request with a non-empty message and
a non-empty `chunks` list passes the validation and reaches the completion call with
the context built from `chunks`; every request that `sendChatMessage` sends does. -/
theorem chat_requires_selection :
    (∀ body : ChatRequest, body.chunks = none ∨ body.chunks = some [] →
      chatHandler body = ChatOutcome.validationError 400) ∧
    (∀ (st : ClientState) (input : Str), getSelectedChunksText st = some [] →
      sendChatMessage st input = none) ∧
    (∀ (body : ChatRequest) (message : Str) (chunks : List SelectedChunk),
      body.message = some message → message ≠ [] →
      body.chunks = some chunks → chunks ≠ [] →
      chatHandler body =
        ChatOutcome.completion (chatContext chunks) (userPrompt (chatContext chunks) message)) ∧
    (∀ (st : ClientState) (input : Str) (req : ChatRequest),
      sendChatMessage st input = some req →
      ∃ context prompt, chatHandler req = ChatOutcome.completion context prompt) := by
  have pass : ∀ (body : ChatRequest) (message : Str) (chunks : List SelectedChunk),
      body.message = some message → message ≠ [] →
      body.chunks = some chunks → chunks ≠ [] →
      chatHandler body =
        ChatOutcome.completion (chatContext chunks)
          (userPrompt (chatContext chunks) message) := by
    intro body message chunks hm hmne hc hcne
    have h1 : message.isEmpty = false := by
      cases message with
      | nil => exact absurd rfl hmne
      | cons _ _ => rfl
    have h2 : (chunks.length == 0) = false := by
      cases chunks with
      | nil => exact absurd rfl hcne
      | cons _ _ => rfl
    simp only [chatHandler, hm, hc, h1, h2, Bool.or_self, Bool.false_eq_true, if_false]
  refine ⟨?_, ?_, pass, ?_⟩
  · intro body h
    rcases h with h | h
    · cases hm : body.message <;> simp [chatHandler, hm, h]
    · cases hm : body.message <;> simp [chatHandler, hm, h]
  · intro st input h
    simp only [sendChatMessage, h]
    split <;> rfl
  · intro st input req h
    simp only [sendChatMessage] at h
    split at h
    · exact absurd h (by simp)
    · rename_i hmsg
      split at h
      · exact absurd h (by simp)
      · rename_i data hdata
        split at h
        · exact absurd h (by simp)
        · rename_i hlen
          simp only [Option.some.injEq] at h
          subst h
          refine ⟨_, _, pass _ (trim input) data rfl ?_ rfl ?_⟩
          · intro h0
            exact hmsg (by rw [h0]; rfl)
          · intro h0
            exact hlen (by rw [h0]; rfl)

theorem chat_requires_selection_witness :
    chatHandler { sampleRequest with chunks := some [] } = ChatOutcome.validationError 400 ∧
    chatHandler { sampleRequest with chunks := none } = ChatOutcome.validationError 400 ∧
    sendChatMessage { sampleState with selectedChunks := [] } ['h', 'i'] = none ∧
    chatHandler sampleRequest =
      ChatOutcome.completion "[Chunk 1]: a".toList
        (userPrompt "[Chunk 1]: a".toList ['h', 'i']) :=
  ⟨chat_requires_selection.1 _ (Or.inr rfl),
   chat_requires_selection.1 _ (Or.inl rfl),
   chat_requires_selection.2.1 _ _ (by decide),
   (chat_requires_selection.2.2.1 sampleRequest ['h', 'i'] [{ id := 1, text := ['a'] }]
      rfl (by decide) rfl (by decide)).trans (by decide)⟩

/-- For an id that is not the name of a member of `Object.prototype`, the store
behaves as a dictionary: deleting a present id succeeds, after which reading it gives
status 404 and every other id reads as before; deleting an absent id gives status 404
and leaves the store as it was. -/
theorem deleteDocumentHandler_of_plain_id (store : List (Str × Document)) (fileId : Str)
    (hplain : objectPrototypeKeys.contains fileId = false) :
    (∀ doc, store.lookup fileId = some doc →
      deleteDocumentHandler store fileId =
        (StoreResponse.deleted, deleteProperty store fileId) ∧
      getChunksHandler (deleteProperty store fileId) fileId = StoreResponse.notFound ∧
      ∀ other, other ≠ fileId →
        getChunksHandler (deleteProperty store fileId) other = getChunksHandler store other) ∧
    (store.lookup fileId = none →
      deleteDocumentHandler store fileId = (StoreResponse.notFound, store)) := by
  constructor
  · intro doc hdoc
    refine ⟨?_, ?_, ?_⟩
    · simp only [deleteDocumentHandler, getProperty, hdoc]
    · simp only [getChunksHandler, getProperty, lookup_deleteProperty, if_true, hplain,
        Bool.false_eq_true, if_false]
    · intro other hother
      simp only [getChunksHandler, getProperty, lookup_deleteProperty, if_neg hother]
  · intro hnone
    simp only [deleteDocumentHandler, getProperty, hnone, hplain, Bool.false_eq_true,
      if_false]

theorem deleteDocumentHandler_of_plain_id_witness :
    deleteDocumentHandler sampleStore ['d'] = (StoreResponse.deleted, []) ∧
    getChunksHandler [] ['d'] = StoreResponse.notFound ∧
    deleteDocumentHandler sampleStore ['x'] = (StoreResponse.notFound, sampleStore) :=
  ⟨((deleteDocumentHandler_of_plain_id sampleStore ['d'] (by decide)).1 sampleDocument rfl).1,
   ((deleteDocumentHandler_of_plain_id sampleStore ['d'] (by decide)).1 sampleDocument rfl).2.1,
   (deleteDocumentHandler_of_plain_id sampleStore ['x'] (by decide)).2 rfl⟩

/-- C12, the code at the failing input: on the empty store the id `toString` names no
document, yet the delete handler answers with success instead of status 404, because
`documentChunks[fileId]` reads the member `toString` of `Object.prototype`; the read
handler answers that id with status 200 as well. -/
theorem deleteDocumentHandler_inherited_name :
    ([] : List (Str × Document)).lookup "toString".toList = none ∧
    deleteDocumentHandler [] "toString".toList = (StoreResponse.deleted, []) ∧
    getChunksHandler [] "toString".toList = StoreResponse.inheritedValue ∧
    deleteDocumentHandler [] "toString".toList ≠ (StoreResponse.notFound, []) := by
  decide

/-- The value of `a || b || d` for numbers `a`, `b` and a non-zero literal `d`: it is
never 0, it is `a` when `a` is truthy, else `b` when `b` is truthy, else `d`. -/
theorem orDefault_orNumber (a b : Option Int) (d : Int) (hd : d ≠ 0) :
    orDefault (orNumber a b) d ≠ 0 ∧
    (∀ v, a = some v → v ≠ 0 → orDefault (orNumber a b) d = v) ∧
    (∀ v, falsy a → b = some v → v ≠ 0 → orDefault (orNumber a b) d = v) ∧
    (falsy a → falsy b → orDefault (orNumber a b) d = d) := by
  have hb : ∀ x : Option Int, orDefault x d ≠ 0 := by
    intro x
    cases x with
    | none => exact hd
    | some v =>
      by_cases hv : v = 0
      · simp [orDefault, hv, hd]
      · simp [orDefault, hv]
  have hfa : falsy a → orNumber a b = b := by
    intro h
    rcases h with h | h <;> simp [orNumber, h]
  refine ⟨hb _, ?_, ?_, ?_⟩
  · intro v ha hv
    simp [orNumber, orDefault, ha, hv]
  · intro v ha hbv hv
    rw [hfa ha, hbv]
    simp [orDefault, hv]
  · intro ha hfb
    rw [hfa ha]
    rcases hfb with h | h <;> simp [orDefault, h]

/-- C14: the chunk size and the overlap size that the upload handler resolves are
never 0. Each is the request value when that parses to a non-zero integer, else the
environment default when that parses to a non-zero integer, else 400 and 25. A request
for `overlapSize` 0, without an environment default, is therefore chunked with overlap
25 and not with overlap 0; for 40 tokens and chunk size 30 that gives the chunks
`[0,29]`, `[5,34]`, `[10,39]` instead of `[0,29]`, `[30,39]`. -/
theorem upload_sizes_never_zero (body : UploadBody) (env : Env) :
    uploadChunkSize body env ≠ 0 ∧ uploadOverlapSize body env ≠ 0 ∧
    ((∀ v, parseInt body.chunkSize = some v → v ≠ 0 → uploadChunkSize body env = v) ∧
      (∀ v, falsy (parseInt body.chunkSize) → parseInt env.defaultChunkSize = some v →
        v ≠ 0 → uploadChunkSize body env = v) ∧
      (falsy (parseInt body.chunkSize) → falsy (parseInt env.defaultChunkSize) →
        uploadChunkSize body env = 400)) ∧
    ((∀ v, parseInt body.overlapSize = some v → v ≠ 0 → uploadOverlapSize body env = v) ∧
      (∀ v, falsy (parseInt body.overlapSize) → parseInt env.defaultOverlapSize = some v →
        v ≠ 0 → uploadOverlapSize body env = v) ∧
      (falsy (parseInt body.overlapSize) → falsy (parseInt env.defaultOverlapSize) →
        uploadOverlapSize body env = 25)) ∧
    (body.overlapSize = some ['0'] → env.defaultOverlapSize = none →
      uploadOverlapSize body env = 25 ∧
      ∀ (fuel : Nat) (text : Str),
        uploadChunks fuel body env text = chunkText fuel text (uploadChunkSize body env) 25) ∧
    ((uploadChunks 40 ⟨some ['3', '0'], some ['0']⟩ ⟨none, none⟩ (words 40)).map
        (fun chunks => chunks.map Chunk.range) = some [(0, 29), (5, 34), (10, 39)] ∧
      (chunkText 40 (words 40) 30 0).map (fun chunks => chunks.map Chunk.range) =
        some [(0, 29), (30, 39)]) := by
  obtain ⟨c0, c1, c2, c3⟩ := orDefault_orNumber (parseInt body.chunkSize)
    (parseInt env.defaultChunkSize) 400 (by decide)
  obtain ⟨o0, o1, o2, o3⟩ := orDefault_orNumber (parseInt body.overlapSize)
    (parseInt env.defaultOverlapSize) 25 (by decide)
  refine ⟨c0, o0, ⟨c1, c2, c3⟩, ⟨o1, o2, o3⟩, ?_, by decide, by decide⟩
  intro hbody henv
  have h25 : uploadOverlapSize body env = 25 :=
    o3 (Or.inr (by rw [hbody]; decide)) (Or.inl (by rw [henv]; rfl))
  refine ⟨h25, ?_⟩
  intro fuel text
  rw [uploadChunks, h25]

theorem upload_sizes_never_zero_witness :
    uploadOverlapSize ⟨some ['4', '0', '0'], some ['0']⟩ ⟨none, none⟩ = 25 ∧
    uploadOverlapSize ⟨none, some ['0']⟩ ⟨none, some ['5', '0']⟩ = 50 ∧
    uploadChunkSize ⟨some ['p', 'x'], none⟩ ⟨some ['0'], none⟩ = 400 ∧
    uploadOverlapSize ⟨none, some ['1', '0']⟩ ⟨none, none⟩ = 10 :=
  ⟨((upload_sizes_never_zero ⟨some ['4', '0', '0'], some ['0']⟩ ⟨none, none⟩).2.2.2.2.1
      rfl rfl).1,
   (upload_sizes_never_zero ⟨none, some ['0']⟩ ⟨none, some ['5', '0']⟩).2.2.2.1.2.1 50
      (Or.inr (by decide)) (by decide) (by decide),
   (upload_sizes_never_zero ⟨some ['p', 'x'], none⟩ ⟨some ['0'], none⟩).2.2.1.2.2
      (Or.inl (by decide)) (Or.inr (by decide)),
   (upload_sizes_never_zero ⟨none, some ['1', '0']⟩ ⟨none, none⟩).2.2.2.1.1 10
      (by decide) (by decide)⟩

end DocChunk
